import Mathlib

/-!
A verification development for the `dir-hasher` tool
(`src/shared/projects/dir-hasher/dir-hasher.go`): a shallow embedding of
its directory walk (`createDirectoryInventory`), digest pass
(`generateDirectoryHashes`), manifest data (`createTomlFile`), zip
archiving (`zipDirectory`) and the `main` pipeline, together with
theorems checking the specification's claims about them.
-/

namespace DirHasher

/-- Bytes of a string, one `Nat` per character code point (every string
used in this development is ASCII, where code points coincide with the
UTF-8 bytes Go works with). -/
def strBytes (s : String) : List Nat := s.data.map Char.toNat

/-- Go's bytewise string `<=`, the order `sort.Strings` uses inside
`filepath.Walk` (`readDirNames` sorts the entry names of each directory
before the walk descends). -/
def bytesLe : List Nat → List Nat → Bool
  | [], _ => true
  | _ :: _, [] => false
  | a :: as, b :: bs =>
    if a < b then true
    else if a = b then bytesLe as bs
    else false

/-- Name order used by the walk: bytewise comparison of the two names. -/
def nameLe (a b : String) : Bool := bytesLe (strBytes a) (strBytes b)

/-- What opening and fully reading a regular file yields: either the whole
content, or the chunks returned by successful reads followed by a non-EOF
I/O error (an open failure is `fail [] msg`). -/
inductive ReadOutcome where
  | ok (content : List Nat)
  | fail (readChunks : List (List Nat)) (msg : String)
deriving DecidableEq

/-- The size the file's metadata reports (`info.Size()`). -/
def ReadOutcome.byteLen : ReadOutcome → Nat
  | .ok c => c.length
  | .fail cs _ => cs.flatten.length

/-- A directory tree as the filesystem presents it: the entry list of a
directory is in the arbitrary enumeration order the OS returns; `denied`
is an entry whose stat/access fails during a walk. -/
inductive FSTree where
  | file (rd : ReadOutcome)
  | dir (entries : List (String × FSTree))
  | denied

/-- Mirror of the Go `FileInfo` record captured by the inventory walk:
relative path, stat size, modification time, directory flag. `rd` stands
in for `Path`: it is what opening and reading the recorded path yields.
Walking a tree fills `modTime` with 0 (no clock in the model) and gives
directory records size 0; neither value feeds any digest, and directory
sizes are never added to `TotalSize`, matching the source. -/
structure FileInfo where
  relPath : String
  size : Nat
  modTime : Nat
  isDir : Bool
  rd : ReadOutcome
deriving DecidableEq

/-- `filepath.Rel`-style relative path of entry `name` inside `base`
(`base = ""` denotes the walk root). -/
def joinRel (base name : String) : String :=
  if base = "" then name else base ++ "/" ++ name

/-- Order on directory entries by name, as `filepath.Walk` sorts them. -/
def entLe (a b : String × FSTree) : Prop := nameLe a.1 b.1 = true

instance : DecidableRel entLe :=
  fun a b => inferInstanceAs (Decidable (nameLe a.1 b.1 = true))

/-- The name-sorted entry list of a directory, modelling `readDirNames`'s
`sort.Strings` inside `filepath.Walk`. -/
def sortEnts (es : List (String × FSTree)) : List (String × FSTree) :=
  List.insertionSort entLe es

mutual

/-- One step of `filepath.Walk` on entry `name` of directory `base`, as
seen by `createDirectoryInventory`'s callback: a stat failure is logged
and skipped (the callback returns nil, so the walk continues), a regular
file yields one record, a directory yields its record followed by the
records of its children, visited in name-sorted order. -/
def walkEntry (base name : String) (t : FSTree) : List FileInfo :=
  match t with
  | .denied => []
  | .file rd =>
    [{ relPath := joinRel base name, size := rd.byteLen, modTime := 0,
       isDir := false, rd := rd }]
  | .dir es =>
    { relPath := joinRel base name, size := 0, modTime := 0,
      isDir := true, rd := .ok [] } ::
      walkSeq (joinRel base name) (sortEnts es)
termination_by sizeOf t
decreasing_by
  rw [show sizeOf (sortEnts es) = sizeOf es from
    (List.perm_insertionSort entLe es).sizeOf_eq_sizeOf]
  simp [FSTree.dir.sizeOf_spec]

/-- Sequential processing of an (already sorted) sibling list. -/
def walkSeq (base : String) (es : List (String × FSTree)) : List FileInfo :=
  match es with
  | [] => []
  | (n, t) :: rest => walkEntry base n t ++ walkSeq base rest
termination_by sizeOf es

end

/-- The records `filepath.Walk` produces from the root: the root entry
itself is skipped (`path == rootDir`), then its children are walked. A
root that is not a directory yields no records. -/
def rootWalk : FSTree → List FileInfo
  | .dir es => walkSeq "" (sortEnts es)
  | _ => []

/-- Mirror of the Go `DirectoryInventory` (the `RootDir` string and the
`InventoryAt` timestamp are not needed by any claim and are omitted). -/
structure DirectoryInventory where
  Files : List FileInfo
  TotalSize : Nat
  TotalFiles : Nat
  TotalDirs : Nat
deriving DecidableEq

/-- One iteration of the walk callback's bookkeeping: append the record
and bump the aggregate counters exactly as the Go callback does. -/
def invStep (inv : DirectoryInventory) (r : FileInfo) : DirectoryInventory :=
  let inv' := { inv with Files := inv.Files ++ [r] }
  if r.isDir then
    { inv' with TotalDirs := inv'.TotalDirs + 1 }
  else
    { inv' with TotalFiles := inv'.TotalFiles + 1,
                TotalSize := inv'.TotalSize + r.size }

/-- Folding the callback bookkeeping over a record sequence. -/
def inventoryOf (records : List FileInfo) : DirectoryInventory :=
  records.foldl invStep { Files := [], TotalSize := 0, TotalFiles := 0, TotalDirs := 0 }

/-- `createDirectoryInventory`: walk the root and accumulate records and
aggregates. -/
def createDirectoryInventory (t : FSTree) : DirectoryInventory :=
  inventoryOf (rootWalk t)

/-- The eleven digest algorithms, abstracted to their one-shot semantics:
each incremental `hash.Hash` used by the Go code satisfies the contract
that `Sum(nil)` after a sequence of writes is the algorithm applied to
the concatenation of all written bytes, so an algorithm is modelled as a
function from the accumulated byte stream to its digest bytes. `k12`
covers the 32-byte `Read` of the KangarooTwelve XOF; `xxh3` is the
one-shot `xxh3.HashString`, returning a 64-bit number. -/
structure HashFuncs where
  sha256 : List Nat → List Nat
  whirlpool : List Nat → List Nat
  ripemd160 : List Nat → List Nat
  sha3_256 : List Nat → List Nat
  blake2b : List Nat → List Nat
  blake3 : List Nat → List Nat
  sha512 : List Nat → List Nat
  k12 : List Nat → List Nat
  xxh64 : List Nat → List Nat
  murmur3 : List Nat → List Nat
  xxh3 : List Nat → Nat

/-- The bytes written so far to each of the ten incremental hashers
created at the top of `generateDirectoryHashes`. -/
structure HashState where
  sha256Acc : List Nat
  whirlpoolAcc : List Nat
  ripemd160Acc : List Nat
  sha3Acc : List Nat
  blake2bAcc : List Nat
  blake3Acc : List Nat
  sha512Acc : List Nat
  k12Acc : List Nat
  xxh64Acc : List Nat
  murmur3Acc : List Nat

/-- Fresh hashers: nothing written yet. -/
def initHashState : HashState :=
  ⟨[], [], [], [], [], [], [], [], [], []⟩

/-- The read loop's buffer size: `1024*1024` (1 MiB). -/
def chunkSize : Nat := 1048576

/-- The successive `file.Read(buffer)` results for a file of the given
content: the loop fills a 1 MiB buffer until EOF. `cur` is the (reversed)
partial chunk being filled. Structural on the content so that it
evaluates inside the kernel. -/
def chunksOfAux (l : List Nat) (cur : List Nat) : List (List Nat) :=
  match l with
  | [] => if cur.isEmpty then [] else [cur.reverse]
  | a :: as =>
    let cur' := a :: cur
    if cur'.length = chunkSize then cur'.reverse :: chunksOfAux as []
    else chunksOfAux as cur'

/-- The chunks the read loop feeds to the hashers for one file. -/
def chunksOf (l : List Nat) : List (List Nat) := chunksOfAux l []

/-- One iteration of the read loop body (lines 397-410 of the source):
the chunk is written to the ten incremental hashers; additionally
`xxh3.HashString(string(buffer[:n]))` is computed and its result is
discarded by the source — the `h` binding below is dead, exactly as in
the Go code. -/
def updChunk (H : HashFuncs) (st : HashState) (chunk : List Nat) : HashState :=
  let _h := H.xxh3 chunk
  { sha256Acc := st.sha256Acc ++ chunk
    whirlpoolAcc := st.whirlpoolAcc ++ chunk
    ripemd160Acc := st.ripemd160Acc ++ chunk
    sha3Acc := st.sha3Acc ++ chunk
    blake2bAcc := st.blake2bAcc ++ chunk
    blake3Acc := st.blake3Acc ++ chunk
    sha512Acc := st.sha512Acc ++ chunk
    k12Acc := st.k12Acc ++ chunk
    xxh64Acc := st.xxh64Acc ++ chunk
    murmur3Acc := st.murmur3Acc ++ chunk }

/-- Processing of one inventory record by the digest loop: directories
are skipped; a readable file has each of its chunks written to all
hashers; an open failure or a non-EOF read error aborts the whole pass
(the chunks read before the error were written to the hashers, but that
state is discarded because the pass returns an error). -/
def processFile (H : HashFuncs) (st : HashState) (fi : FileInfo) :
    Except String HashState :=
  if fi.isDir then .ok st
  else
    match fi.rd with
    | .ok c => .ok (List.foldl (updChunk H) st (chunksOf c))
    | .fail _ msg => .error ("error reading file " ++ fi.relPath ++ ": " ++ msg)

/-- The per-file loop of `generateDirectoryHashes`, aborting on the first
I/O failure. -/
def processFiles (H : HashFuncs) (st : HashState) :
    List FileInfo → Except String HashState
  | [] => .ok st
  | fi :: rest =>
    match processFile H st fi with
    | .error e => .error e
    | .ok st' => processFiles H st' rest

/-- Lowercase hex digit. -/
def hexDigit (n : Nat) : Char :=
  if n < 10 then Char.ofNat (48 + n) else Char.ofNat (87 + n)

/-- `hex.EncodeToString`: two lowercase hex digits per byte. -/
def hexEncode (l : List Nat) : String :=
  ⟨(l.map (fun b => [hexDigit (b / 16 % 16), hexDigit (b % 16)])).flatten⟩

/-- Hex digits of `n`, most significant first (`fuel` bounds the number
of digits; 16 suffices for a 64-bit value). -/
def hexNatAux (fuel n : Nat) : List Char :=
  match fuel with
  | 0 => []
  | fuel' + 1 =>
    if n = 0 then [] else hexNatAux fuel' (n / 16) ++ [hexDigit (n % 16)]

/-- `fmt.Sprintf("%x", n)` for a 64-bit value: minimal lowercase hex. -/
def hexNat (n : Nat) : String :=
  if n = 0 then "0" else ⟨hexNatAux 16 n⟩

/-- Mirror of the Go `HashResult`'s eleven digest fields (the GPG key id
and signature fields are produced by the signing step, which no claim of
this development concerns, and are omitted). -/
structure HashResult where
  KangarooTwelve : String
  Blake3 : String
  SHA3_256 : String
  Blake2b : String
  SHA512 : String
  Whirlpool : String
  RIPEMD160 : String
  XXH3 : String
  SHA256 : String
  XXHash64 : String
  Murmur3 : String
deriving DecidableEq

/-- Finalization of all hashers (lines 436-452 of the source): every
incremental hasher is summed over what was written to it, while the
`XXH3` field is finalized — exactly as in lines 451-452 — from the fixed
string `"Sample for XXH3"` rather than from the processed stream. -/
def finalizeHashes (H : HashFuncs) (st : HashState) : HashResult :=
  { KangarooTwelve := hexEncode (H.k12 st.k12Acc)
    Blake3 := hexEncode (H.blake3 st.blake3Acc)
    SHA3_256 := hexEncode (H.sha3_256 st.sha3Acc)
    Blake2b := hexEncode (H.blake2b st.blake2bAcc)
    SHA512 := hexEncode (H.sha512 st.sha512Acc)
    Whirlpool := hexEncode (H.whirlpool st.whirlpoolAcc)
    RIPEMD160 := hexEncode (H.ripemd160 st.ripemd160Acc)
    XXH3 := hexNat (H.xxh3 (strBytes "Sample for XXH3"))
    SHA256 := hexEncode (H.sha256 st.sha256Acc)
    XXHash64 := hexEncode (H.xxh64 st.xxh64Acc)
    Murmur3 := hexEncode (H.murmur3 st.murmur3Acc) }

/-- `generateDirectoryHashes`: run the per-file loop over the inventory,
then finalize every hasher. -/
def generateDirectoryHashes (H : HashFuncs) (inventory : DirectoryInventory) :
    Except String HashResult :=
  match processFiles H initHashState inventory.Files with
  | .error e => .error e
  | .ok st => .ok (finalizeHashes H st)

/-- The eleven digest values of a result, in the source's declaration
order. -/
def digestList (r : HashResult) : List String :=
  [r.KangarooTwelve, r.Blake3, r.SHA3_256, r.Blake2b, r.SHA512,
   r.Whirlpool, r.RIPEMD160, r.XXH3, r.SHA256, r.XXHash64, r.Murmur3]

/-- The data `createTomlFile` serializes (the byte-level TOML layout,
ASCII art and timestamps are cosmetic and not modelled): the
`[directory]` aggregates copied from the inventory, the `[hashes]`
values, and the `[files]` table listing every non-directory record in
inventory order. -/
structure Manifest where
  name : String
  total_files : Nat
  total_directories : Nat
  total_size_bytes : Nat
  hashes : HashResult
  fileTable : List (String × Nat × Nat)
deriving DecidableEq

/-- Build the manifest data from the inventory and the hash result. -/
def createTomlData (dirName : String) (inventory : DirectoryInventory)
    (hr : HashResult) : Manifest :=
  { name := dirName
    total_files := inventory.TotalFiles
    total_directories := inventory.TotalDirs
    total_size_bytes := inventory.TotalSize
    hashes := hr
    fileTable := (inventory.Files.filter (fun f => !f.isDir)).map
      (fun f => (f.relPath, f.size, f.modTime)) }

/-- A member of the produced zip archive: its name (forward-slash path,
directories with a trailing slash), directory flag, and stored bytes. -/
structure ZEntry where
  zname : String
  zisDir : Bool
  zdata : List Nat
deriving DecidableEq

mutual

/-- `zipDirectory`'s walk callback on entry `name` of `base`. Unlike the
inventory callback it propagates walk errors (aborting the walk); a file
entry's header is created and then its content copied — if the copy
fails mid-read, the bytes copied so far stay in the entry and the walk
aborts. The function returns the entries written to the archive before
returning (the deferred `zipWriter.Close()` finalizes them even on the
error path) together with an error, if any. -/
def zipEntry (base name : String) (t : FSTree) : List ZEntry × Option String :=
  match t with
  | .denied => ([], some ("walk error at " ++ joinRel base name))
  | .file rd =>
    match rd with
    | .ok c => ([⟨joinRel base name, false, c⟩], none)
    | .fail cs msg => ([⟨joinRel base name, false, cs.flatten⟩], some msg)
  | .dir es =>
    let inner := zipSeq (joinRel base name) (sortEnts es)
    (⟨joinRel base name ++ "/", true, []⟩ :: inner.1, inner.2)
termination_by sizeOf t
decreasing_by
  rw [show sizeOf (sortEnts es) = sizeOf es from
    (List.perm_insertionSort entLe es).sizeOf_eq_sizeOf]
  simp [FSTree.dir.sizeOf_spec]

/-- Sequential zip walk over a sorted sibling list, stopping at the
first error. -/
def zipSeq (base : String) (es : List (String × FSTree)) :
    List ZEntry × Option String :=
  match es with
  | [] => ([], none)
  | (n, t) :: rest =>
    match zipEntry base n t with
    | (zs, some e) => (zs, some e)
    | (zs, none) =>
      let r := zipSeq base rest
      (zs ++ r.1, r.2)
termination_by sizeOf es

end

/-- `zipDirectory`: walk the source root; the root itself is visited
with relative path `"."` and skipped before any entry is created, then
its children are archived in walk order. A denied root aborts at once. -/
def zipDirectory : FSTree → List ZEntry × Option String
  | .dir es => zipSeq "" (sortEnts es)
  | .file _ => ([], none)
  | .denied => ([], some "walk error at root")

/-- What `main` leaves on disk: the manifest, and the zip archive's
member list (present whenever the archive file was created, because the
deferred `zipWriter.Close()` finalizes it even when `zipDirectory`
returns an error). -/
structure Disk where
  toml : Option Manifest
  zipFile : Option (List ZEntry)
deriving DecidableEq

/-- Result of a run: the fatal error message, if any (`log.Fatalf`
terminates with non-zero status), and the on-disk artifacts. -/
structure RunOutcome where
  fatal : Option String
  disk : Disk
deriving DecidableEq

/-- The `main` pipeline: pre-flight root check, inventory walk, digest
pass, manifest write, zip write. `root = none` models a `-dir` path for
which `os.Stat` reports not-exist. Manifest serialization itself cannot
fail in this model; the claims exercised here fail earlier or later. -/
def runMain (H : HashFuncs) (root : Option FSTree) (dirName : String) :
    RunOutcome :=
  match root with
  | none =>
    { fatal := some "Error: Directory does not exist"
      disk := { toml := none, zipFile := none } }
  | some t =>
    let inventory := createDirectoryInventory t
    match generateDirectoryHashes H inventory with
    | .error e =>
      { fatal := some ("Error generating hashes: " ++ e)
        disk := { toml := none, zipFile := none } }
    | .ok hr =>
      let m := createTomlData dirName inventory hr
      let z := zipDirectory t
      match z.2 with
      | some e =>
        { fatal := some ("Error creating ZIP file: " ++ e)
          disk := { toml := some m, zipFile := some z.1 } }
      | none =>
        { fatal := none
          disk := { toml := some m, zipFile := some z.1 } }

/-! ### Properties of the bytewise name order -/

theorem bytesLe_total : ∀ a b : List Nat, bytesLe a b = true ∨ bytesLe b a = true
  | [], _ => Or.inl rfl
  | _ :: _, [] => Or.inr rfl
  | a :: as, b :: bs => by
    rcases Nat.lt_trichotomy a b with h | h | h
    · left; simp [bytesLe, h]
    · subst h
      rcases bytesLe_total as bs with h' | h'
      · left; simp [bytesLe, h']
      · right; simp [bytesLe, h']
    · right; simp [bytesLe, h]

theorem bytesLe_trans : ∀ a b c : List Nat,
    bytesLe a b = true → bytesLe b c = true → bytesLe a c = true
  | [], _, _, _, _ => rfl
  | _ :: _, [], _, h, _ => by simp [bytesLe] at h
  | _ :: _, _ :: _, [], _, h => by simp [bytesLe] at h
  | a :: as, b :: bs, c :: cs, h1, h2 => by
    simp only [bytesLe] at h1 h2 ⊢
    by_cases hab : a < b
    · by_cases hbc : b < c
      · simp [Nat.lt_trans hab hbc]
      · rw [if_neg hbc] at h2
        by_cases hbc' : b = c
        · subst hbc'; simp [hab]
        · rw [if_neg hbc'] at h2; simp at h2
    · rw [if_neg hab] at h1
      by_cases hab' : a = b
      · subst hab'
        rw [if_pos rfl] at h1
        by_cases hbc : a < c
        · simp [hbc]
        · rw [if_neg hbc] at h2
          by_cases hbc' : a = c
          · rw [if_neg hbc, if_pos hbc']
            rw [if_pos hbc'] at h2
            exact bytesLe_trans as bs cs h1 h2
          · rw [if_neg hbc'] at h2; simp at h2
      · rw [if_neg hab'] at h1; simp at h1

theorem bytesLe_antisymm : ∀ a b : List Nat,
    bytesLe a b = true → bytesLe b a = true → a = b
  | [], [], _, _ => rfl
  | [], _ :: _, _, h => by simp [bytesLe] at h
  | _ :: _, [], h, _ => by simp [bytesLe] at h
  | a :: as, b :: bs, h1, h2 => by
    simp only [bytesLe] at h1 h2
    by_cases hab : a < b
    · simp [Nat.lt_asymm hab, Nat.ne_of_lt' hab] at h2
    · rw [if_neg hab] at h1
      by_cases hab' : a = b
      · subst hab'
        rw [if_pos rfl] at h1
        rw [if_neg hab, if_pos rfl] at h2
        rw [bytesLe_antisymm as bs h1 h2]
      · rw [if_neg hab'] at h1; simp at h1

theorem strBytes_inj {a b : String} (h : strBytes a = strBytes b) : a = b := by
  cases a with
  | mk da =>
    cases b with
    | mk db =>
      have : da = db := by
        have hinj : Function.Injective Char.toNat := by
          intro x y hxy
          have := congrArg Char.ofNat hxy
          rwa [Char.ofNat_toNat, Char.ofNat_toNat] at this
        exact List.map_injective_iff.mpr hinj h
      rw [this]

theorem nameLe_antisymm {a b : String}
    (h1 : nameLe a b = true) (h2 : nameLe b a = true) : a = b :=
  strBytes_inj (bytesLe_antisymm _ _ h1 h2)

instance : IsTotal (String × FSTree) entLe :=
  ⟨fun a b => bytesLe_total (strBytes a.1) (strBytes b.1)⟩

instance : IsTrans (String × FSTree) entLe :=
  ⟨fun _ _ _ h1 h2 => bytesLe_trans _ _ _ h1 h2⟩

theorem sortEnts_perm (es : List (String × FSTree)) : List.Perm (sortEnts es) es :=
  List.perm_insertionSort entLe es

theorem sortEnts_sorted (es : List (String × FSTree)) :
    List.Sorted entLe (sortEnts es) :=
  List.sorted_insertionSort entLe es

/-- The name-sorted sibling list does not depend on the enumeration order
the filesystem returned, as long as sibling names are distinct (as they
are on a real filesystem). -/
theorem sortEnts_eq_of_perm {es es' : List (String × FSTree)}
    (hp : List.Perm es es') (hnd : (es.map Prod.fst).Nodup) :
    sortEnts es = sortEnts es' := by
  have hanti : ∀ p q : String × FSTree,
      (entLe p q ∧ p.1 ≠ q.1) → (entLe q p ∧ q.1 ≠ p.1) → p = q := by
    intro p q h1 h2
    exact absurd (nameLe_antisymm h1.1 h2.1) h1.2
  have hstrict : ∀ l : List (String × FSTree), List.Sorted entLe l →
      (l.map Prod.fst).Nodup →
      l.Pairwise (fun p q => entLe p q ∧ p.1 ≠ q.1) := by
    intro l hs hn
    exact hs.and ((List.pairwise_map.mp hn))
  have hnd' : (es'.map Prod.fst).Nodup := ((hp.map Prod.fst).nodup_iff).mp hnd
  have hnds : ((sortEnts es).map Prod.fst).Nodup :=
    (((sortEnts_perm es).map Prod.fst).nodup_iff).mpr hnd
  have hnds' : ((sortEnts es').map Prod.fst).Nodup :=
    (((sortEnts_perm es').map Prod.fst).nodup_iff).mpr hnd'
  have hperm : List.Perm (sortEnts es) (sortEnts es') :=
    ((sortEnts_perm es).trans hp).trans (sortEnts_perm es').symm
  exact @List.eq_of_perm_of_sorted _ _ ⟨hanti⟩ _ _ hperm
    (hstrict _ (sortEnts_sorted es) hnds)
    (hstrict _ (sortEnts_sorted es') hnds')

/-! ### The digest pass writes exactly the concatenated file contents -/

/-- Whether the digest loop can read this record without error. -/
def readOk (fi : FileInfo) : Bool :=
  fi.isDir || (match fi.rd with | .ok _ => true | .fail _ _ => false)

/-- All records of the list can be processed without an I/O error. -/
def allReadsOk (files : List FileInfo) : Bool := files.all readOk

/-- Whether this record is a regular file whose read fails. -/
def fileFails (fi : FileInfo) : Bool :=
  !fi.isDir && (match fi.rd with | .ok _ => false | .fail _ _ => true)

/-- Some regular file of the list fails to read. -/
def hasFailingRead (files : List FileInfo) : Bool := files.any fileFails

/-- The content a successful read returns (unused for failing reads). -/
def contentOf (fi : FileInfo) : List Nat :=
  match fi.rd with
  | .ok c => c
  | .fail _ _ => []

/-- The byte stream the ten incremental hashers consume over the whole
pass: the contents of the non-directory records, concatenated in
inventory order. -/
def digestStream (files : List FileInfo) : List Nat :=
  ((files.filter (fun f => !f.isDir)).map contentOf).flatten

/-- Appending a byte block to all ten accumulators at once. -/
def appendAll (st : HashState) (l : List Nat) : HashState :=
  { sha256Acc := st.sha256Acc ++ l
    whirlpoolAcc := st.whirlpoolAcc ++ l
    ripemd160Acc := st.ripemd160Acc ++ l
    sha3Acc := st.sha3Acc ++ l
    blake2bAcc := st.blake2bAcc ++ l
    blake3Acc := st.blake3Acc ++ l
    sha512Acc := st.sha512Acc ++ l
    k12Acc := st.k12Acc ++ l
    xxh64Acc := st.xxh64Acc ++ l
    murmur3Acc := st.murmur3Acc ++ l }

theorem updChunk_eq_appendAll (H : HashFuncs) (st : HashState) (c : List Nat) :
    updChunk H st c = appendAll st c := rfl

theorem appendAll_nil (st : HashState) : appendAll st [] = st := by
  cases st; simp [appendAll]

theorem appendAll_appendAll (st : HashState) (a b : List Nat) :
    appendAll (appendAll st a) b = appendAll st (a ++ b) := by
  cases st; simp [appendAll]

theorem chunksOfAux_flatten : ∀ l cur : List Nat,
    (chunksOfAux l cur).flatten = cur.reverse ++ l
  | [], cur => by
    cases cur <;> simp [chunksOfAux]
  | a :: as, cur => by
    simp only [chunksOfAux]
    split
    · simp [chunksOfAux_flatten as []]
    · simp [chunksOfAux_flatten as (a :: cur)]

theorem chunksOf_flatten (l : List Nat) : (chunksOf l).flatten = l := by
  simpa using chunksOfAux_flatten l []

theorem foldl_updChunk (H : HashFuncs) : ∀ (cs : List (List Nat)) (st : HashState),
    List.foldl (updChunk H) st cs = appendAll st cs.flatten
  | [], st => by simp [appendAll_nil]
  | c :: cs, st => by
    simp only [List.foldl_cons, List.flatten_cons, updChunk_eq_appendAll]
    rw [foldl_updChunk H cs, appendAll_appendAll]

theorem processFile_of_dir (H : HashFuncs) (st : HashState) {fi : FileInfo}
    (h : fi.isDir = true) : processFile H st fi = .ok st := by
  simp [processFile, h]

theorem processFile_of_ok (H : HashFuncs) (st : HashState) {fi : FileInfo} {c : List Nat}
    (hd : fi.isDir = false) (h : fi.rd = .ok c) :
    processFile H st fi = .ok (appendAll st c) := by
  simp [processFile, hd, h, foldl_updChunk, chunksOf_flatten]

theorem processFile_of_fail (H : HashFuncs) (st : HashState) {fi : FileInfo}
    {cs : List (List Nat)} {m : String}
    (hd : fi.isDir = false) (h : fi.rd = .fail cs m) :
    processFile H st fi = .error ("error reading file " ++ fi.relPath ++ ": " ++ m) := by
  simp [processFile, hd, h]

/-- Reducing one step of the per-file loop. -/
theorem processFiles_cons_ok (H : HashFuncs) {st st' : HashState} {fi : FileInfo}
    (rest : List FileInfo) (h : processFile H st fi = .ok st') :
    processFiles H st (fi :: rest) = processFiles H st' rest := by
  rw [processFiles, h]

/-- A failing record aborts the per-file loop at once. -/
theorem processFiles_cons_err (H : HashFuncs) {st : HashState} {fi : FileInfo}
    {e : String} (rest : List FileInfo) (h : processFile H st fi = .error e) :
    processFiles H st (fi :: rest) = .error e := by
  rw [processFiles, h]

/-- With every read succeeding, the per-file loop returns the state in
which every accumulator received exactly the concatenation of the
non-directory contents, in inventory order. -/
theorem processFiles_ok (H : HashFuncs) : ∀ (files : List FileInfo) (st : HashState),
    allReadsOk files = true →
    processFiles H st files = .ok (appendAll st (digestStream files))
  | [], st, _ => by simp [processFiles, digestStream, appendAll_nil]
  | fi :: rest, st, h => by
    have h' : readOk fi = true ∧ allReadsOk rest = true := by
      simpa [allReadsOk] using h
    by_cases hd : fi.isDir
    · rw [processFiles_cons_ok H rest (processFile_of_dir H st hd),
        processFiles_ok H rest st h'.2]
      simp [digestStream, hd]
    · have hd' : fi.isDir = false := by simpa using hd
      obtain ⟨c, hc⟩ : ∃ c, fi.rd = .ok c := by
        rcases hrd : fi.rd with c | ⟨cs, m⟩
        · exact ⟨_, rfl⟩
        · rw [readOk, hd', hrd] at h'
          simp at h'
      rw [processFiles_cons_ok H rest (processFile_of_ok H st hd' hc),
        processFiles_ok H rest _ h'.2]
      simp [digestStream, hd', appendAll_appendAll, contentOf, hc]

/-- A failing read anywhere in the list makes the per-file loop abort
with an error. -/
theorem processFiles_fail (H : HashFuncs) : ∀ (files : List FileInfo) (st : HashState),
    hasFailingRead files = true →
    ∃ e, processFiles H st files = .error e
  | fi :: rest, st, h => by
    rcases hpf : processFile H st fi with e | st'
    · exact ⟨e, processFiles_cons_err H rest hpf⟩
    · have hfi : fileFails fi = false := by
        rcases hrd : fi.rd with c | ⟨cs, m⟩
        · simp [fileFails, hrd]
        · by_cases hd : fi.isDir
          · simp [fileFails, hd]
          · have hd' : fi.isDir = false := by simpa using hd
            rw [processFile_of_fail H st hd' hrd] at hpf
            exact absurd hpf (by simp)
      have hrest : hasFailingRead rest = true := by
        rw [hasFailingRead, List.any_cons, hfi] at h
        simpa [hasFailingRead] using h
      obtain ⟨e, he⟩ := processFiles_fail H rest st' hrest
      exact ⟨e, by rw [processFiles_cons_ok H rest hpf, he]⟩

/-- Inserting a record for an empty, readable regular file anywhere in
the list leaves the per-file loop's outcome unchanged. -/
theorem processFiles_insert_empty (H : HashFuncs) :
    ∀ (A : List FileInfo) (st : HashState) (r : FileInfo) (B : List FileInfo),
    r.isDir = false → r.rd = .ok [] →
    processFiles H st (A ++ r :: B) = processFiles H st (A ++ B)
  | [], st, r, B, hd, hr => by
    rw [List.nil_append, List.nil_append]
    rw [processFiles_cons_ok H B (processFile_of_ok H st hd hr), appendAll_nil]
  | fi :: A, st, r, B, hd, hr => by
    rw [List.cons_append, List.cons_append]
    rcases hpf : processFile H st fi with e | st'
    · rw [processFiles_cons_err H _ hpf, processFiles_cons_err H _ hpf]
    · rw [processFiles_cons_ok H _ hpf, processFiles_cons_ok H _ hpf]
      exact processFiles_insert_empty H A st' r B hd hr

/-! ### Inventory bookkeeping -/

theorem foldl_invStep : ∀ (records : List FileInfo) (inv : DirectoryInventory),
    records.foldl invStep inv =
      { Files := inv.Files ++ records
        TotalSize := inv.TotalSize +
          ((records.filter (fun f => !f.isDir)).map FileInfo.size).sum
        TotalFiles := inv.TotalFiles + (records.filter (fun f => !f.isDir)).length
        TotalDirs := inv.TotalDirs + (records.filter (fun f => f.isDir)).length }
  | [], inv => by cases inv; simp
  | r :: rs, inv => by
    rw [List.foldl_cons, foldl_invStep rs]
    by_cases hd : r.isDir
    · simp [invStep, hd, List.filter_cons]
      omega
    · have hd' : r.isDir = false := by simpa using hd
      simp [invStep, hd', List.filter_cons]
      constructor
      · omega
      · omega

theorem inventoryOf_Files (records : List FileInfo) :
    (inventoryOf records).Files = records := by
  rw [inventoryOf, foldl_invStep]
  simp

theorem inventoryOf_TotalFiles (records : List FileInfo) :
    (inventoryOf records).TotalFiles =
      (records.filter (fun f => !f.isDir)).length := by
  rw [inventoryOf, foldl_invStep]
  simp

theorem inventoryOf_TotalDirs (records : List FileInfo) :
    (inventoryOf records).TotalDirs =
      (records.filter (fun f => f.isDir)).length := by
  rw [inventoryOf, foldl_invStep]
  simp

theorem inventoryOf_TotalSize (records : List FileInfo) :
    (inventoryOf records).TotalSize =
      ((records.filter (fun f => !f.isDir)).map FileInfo.size).sum := by
  rw [inventoryOf, foldl_invStep]
  simp


/-! ### Walk and archive structure -/

theorem walkSeq_append (base : String) : ∀ xs ys : List (String × FSTree),
    walkSeq base (xs ++ ys) = walkSeq base xs ++ walkSeq base ys
  | [], ys => by simp [walkSeq]
  | (n, t) :: xs, ys => by
    rw [List.cons_append, walkSeq, walkSeq, walkSeq_append base xs ys,
      List.append_assoc]

mutual

/-- Every stat succeeds and every regular file is readable throughout
the tree. -/
def FSTree.allOk (t : FSTree) : Bool :=
  match t with
  | .denied => false
  | .file rd => match rd with | .ok _ => true | .fail _ _ => false
  | .dir es => allOkSeq es
termination_by sizeOf t

/-- `FSTree.allOk` over a sibling list. -/
def allOkSeq (es : List (String × FSTree)) : Bool :=
  match es with
  | [] => true
  | (_, t) :: rest => t.allOk && allOkSeq rest
termination_by sizeOf es

end

/-- An entry name a filesystem can actually return: nonempty, not `.`
or `..`, and free of path separators. -/
def nameOk (n : String) : Bool :=
  (n != "") && (n != ".") && (n != "..") && !(n.data.contains '/')

mutual

/-- All entry names inside the tree satisfy `nameOk`. -/
def FSTree.validNames (t : FSTree) : Bool :=
  match t with
  | .denied => true
  | .file _ => true
  | .dir es => validSeq es
termination_by sizeOf t

/-- `FSTree.validNames` over a sibling list, also checking each name. -/
def validSeq (es : List (String × FSTree)) : Bool :=
  match es with
  | [] => true
  | (n, t) :: rest => nameOk n && t.validNames && validSeq rest
termination_by sizeOf es

end

theorem allOkSeq_iff : ∀ es : List (String × FSTree),
    allOkSeq es = true ↔ ∀ p ∈ es, p.2.allOk = true
  | [] => by simp [allOkSeq]
  | (n, t) :: rest => by
    rw [allOkSeq]
    simp only [Bool.and_eq_true, allOkSeq_iff rest]
    constructor
    · rintro ⟨h1, h2⟩ p hp
      rcases List.mem_cons.mp hp with h | h
      · subst h; exact h1
      · exact h2 p h
    · intro h
      exact ⟨h (n, t) (List.mem_cons_self _ _),
        fun p hp => h p (List.mem_cons_of_mem _ hp)⟩

theorem allOkSeq_sortEnts (es : List (String × FSTree)) :
    allOkSeq (sortEnts es) = allOkSeq es := by
  by_cases h : allOkSeq es = true
  · rw [h, allOkSeq_iff]
    intro p hp
    exact (allOkSeq_iff es).mp h p ((sortEnts_perm es).mem_iff.mp hp)
  · rw [Bool.eq_false_iff.mpr h, ← Bool.not_eq_true, allOkSeq_iff]
    intro hall
    exact h ((allOkSeq_iff es).mpr fun p hp =>
      hall p ((sortEnts_perm es).mem_iff.mpr hp))

/-- The zip member corresponding to an inventory record: same relative
path (directories get a trailing slash), and the file's bytes. -/
def toZip (r : FileInfo) : ZEntry :=
  ⟨r.relPath ++ (if r.isDir then "/" else ""), r.isDir, contentOf r⟩

theorem zipSeq_agree (N : Nat)
    (ih : ∀ t, sizeOf t ≤ N → ∀ base name, t.allOk = true →
      zipEntry base name t = ((walkEntry base name t).map toZip, none)) :
    ∀ (es : List (String × FSTree)), (∀ p ∈ es, sizeOf p.2 ≤ N) →
      allOkSeq es = true → ∀ base,
      zipSeq base es = ((walkSeq base es).map toZip, none)
  | [], _, _, base => by simp [zipSeq, walkSeq]
  | (n, t) :: rest, hsz, hok, base => by
    have hmem := (allOkSeq_iff ((n, t) :: rest)).mp hok
    have hok1 : t.allOk = true := hmem (n, t) (List.mem_cons_self _ _)
    have hok2 : allOkSeq rest = true :=
      (allOkSeq_iff rest).mpr fun p hp => hmem p (List.mem_cons_of_mem _ hp)
    have h1 := ih t (hsz (n, t) (List.mem_cons_self _ _)) base n hok1
    have h2 := zipSeq_agree N ih rest
      (fun p hp => hsz p (List.mem_cons_of_mem _ hp)) hok2 base
    rw [zipSeq, walkSeq, h1]
    rw [h2]
    simp

theorem zipEntry_agree : ∀ (N : Nat) (t : FSTree), sizeOf t ≤ N →
    ∀ base name, t.allOk = true →
    zipEntry base name t = ((walkEntry base name t).map toZip, none) := by
  intro N
  induction N with
  | zero =>
    intro t ht
    exact absurd ht (by cases t <;> simp)
  | succ N ih =>
    intro t ht base name hok
    match t with
    | .denied =>
      rw [FSTree.allOk] at hok
      exact absurd hok (by simp)
    | .file rd =>
      rcases rd with c | ⟨cs, m⟩
      · rw [zipEntry, walkEntry]
        simp [toZip, contentOf]
      · rw [FSTree.allOk] at hok
        exact absurd hok (by simp)
    | .dir es =>
      have hes : sizeOf es ≤ N := by
        have hds : sizeOf (FSTree.dir es) = 1 + sizeOf es := by
          simp [FSTree.dir.sizeOf_spec]
        omega
      have hsz : ∀ p ∈ sortEnts es, sizeOf p.2 ≤ N := by
        intro p hp
        have hp' : p ∈ es := (sortEnts_perm es).mem_iff.mp hp
        have h1 : sizeOf p < sizeOf es := List.sizeOf_lt_of_mem hp'
        have h2 : sizeOf p.2 < sizeOf p := by
          rcases p with ⟨a, b⟩
          simp
        omega
      have hall : allOkSeq (sortEnts es) = true := by
        rw [allOkSeq_sortEnts]
        rw [FSTree.allOk] at hok
        exact hok
      have hseq := zipSeq_agree N ih (sortEnts es) hsz hall (joinRel base name)
      rw [zipEntry, walkEntry]
      simp only [hseq]
      simp [toZip, contentOf]

/-- Archive/inventory agreement: on a fully readable tree the zip walk
succeeds and produces exactly one member per walked record. -/
theorem zipDirectory_agree (t : FSTree) (hok : t.allOk = true) :
    zipDirectory t = (((createDirectoryInventory t).Files).map toZip, none) := by
  rcases t with rd | es | _
  · simp [zipDirectory, createDirectoryInventory, rootWalk, inventoryOf_Files]
  · have hsz : ∀ p ∈ sortEnts es, sizeOf p.2 ≤ sizeOf es := by
      intro p hp
      have hp' : p ∈ es := (sortEnts_perm es).mem_iff.mp hp
      have h1 : sizeOf p < sizeOf es := List.sizeOf_lt_of_mem hp'
      have h2 : sizeOf p.2 < sizeOf p := by
        rcases p with ⟨a, b⟩
        simp
      omega
    have hall : allOkSeq (sortEnts es) = true := by
      rw [allOkSeq_sortEnts]
      rw [FSTree.allOk] at hok
      exact hok
    have hseq := zipSeq_agree (sizeOf es)
      (fun t' ht' base name h => zipEntry_agree (sizeOf es) t' ht' base name h)
      (sortEnts es) hsz hall ""
    rw [zipDirectory, createDirectoryInventory, rootWalk, inventoryOf_Files, hseq]
  · rw [FSTree.allOk] at hok
    exact absurd hok (by simp)


/-! ### Relative paths never collide with the root entry -/

theorem string_data_nil {n : String} (h : n.data = []) : n = "" :=
  String.ext (by simp [h])

/-- A valid entry name joined under any base yields a relative path that
is not empty and not the root's `"."` (nor the root directory member
name `"./"`). -/
theorem joinRel_good (base n : String) (hn : nameOk n = true) :
    joinRel base n ≠ "" ∧ joinRel base n ≠ "." ∧ joinRel base n ≠ "./" := by
  have hcomp : n ≠ "" ∧ n ≠ "." ∧ '/' ∉ n.data := by
    simp [nameOk] at hn
    exact ⟨hn.1.1.1, hn.1.1.2, hn.2⟩
  have hnd : n.data ≠ [] := fun h => hcomp.1 (string_data_nil h)
  have hnlen : 1 ≤ n.data.length := by
    cases hd : n.data with
    | nil => exact absurd hd hnd
    | cons a as => simp
  have hnlen2 : 1 ≤ n.length := by
    rw [show n.length = n.data.length from rfl]
    exact hnlen
  by_cases hbase : base = ""
  · rw [joinRel, if_pos hbase]
    refine ⟨hcomp.1, hcomp.2.1, ?_⟩
    intro he
    rw [he] at hcomp
    exact hcomp.2.2 (by decide)
  · rw [joinRel, if_neg hbase]
    have hdata : (base ++ "/" ++ n).data = base.data ++ '/' :: n.data := by
      simp
    refine ⟨?_, ?_, ?_⟩
    · intro he
      have h1 := congrArg String.data he
      rw [hdata] at h1
      simp at h1
    · intro he
      have h1 := congrArg List.length (congrArg String.data he)
      rw [hdata] at h1
      simp at h1
      omega
    · intro he
      have h1 := congrArg List.length (congrArg String.data he)
      rw [hdata, List.length_append, List.length_cons,
        show ("./" : String).data.length = 2 from rfl] at h1
      have hb0 : base.data.length = 0 := by omega
      exact hbase (string_data_nil (List.length_eq_zero.mp hb0))

theorem validSeq_iff : ∀ es : List (String × FSTree),
    validSeq es = true ↔
      ∀ p ∈ es, nameOk p.1 = true ∧ p.2.validNames = true
  | [] => by simp [validSeq]
  | (n, t) :: rest => by
    rw [validSeq]
    simp only [Bool.and_eq_true, validSeq_iff rest]
    constructor
    · rintro ⟨⟨h1, h2⟩, h3⟩ p hp
      rcases List.mem_cons.mp hp with h | h
      · subst h; exact ⟨h1, h2⟩
      · exact h3 p h
    · intro h
      refine ⟨⟨(h (n, t) (List.mem_cons_self _ _)).1,
        (h (n, t) (List.mem_cons_self _ _)).2⟩,
        fun p hp => h p (List.mem_cons_of_mem _ hp)⟩

theorem validSeq_sortEnts (es : List (String × FSTree)) :
    validSeq (sortEnts es) = validSeq es := by
  by_cases h : validSeq es = true
  · rw [h, validSeq_iff]
    intro p hp
    exact (validSeq_iff es).mp h p ((sortEnts_perm es).mem_iff.mp hp)
  · rw [Bool.eq_false_iff.mpr h, ← Bool.not_eq_true, validSeq_iff]
    intro hall
    exact h ((validSeq_iff es).mpr fun p hp =>
      hall p ((sortEnts_perm es).mem_iff.mpr hp))

theorem walkSeq_relPath (N : Nat)
    (ih : ∀ t, sizeOf t ≤ N → ∀ base name, nameOk name = true →
      t.validNames = true → ∀ r ∈ walkEntry base name t,
      r.relPath ≠ "" ∧ r.relPath ≠ "." ∧ r.relPath ≠ "./") :
    ∀ (es : List (String × FSTree)), (∀ p ∈ es, sizeOf p.2 ≤ N) →
      validSeq es = true → ∀ base, ∀ r ∈ walkSeq base es,
      r.relPath ≠ "" ∧ r.relPath ≠ "." ∧ r.relPath ≠ "./"
  | [], _, _, base => by simp [walkSeq]
  | (n, t) :: rest, hsz, hv, base => by
    have hmem := (validSeq_iff ((n, t) :: rest)).mp hv
    have hv1 := hmem (n, t) (List.mem_cons_self _ _)
    have hv2 : validSeq rest = true :=
      (validSeq_iff rest).mpr fun p hp => hmem p (List.mem_cons_of_mem _ hp)
    intro r hr
    rw [walkSeq] at hr
    rcases List.mem_append.mp hr with h | h
    · exact ih t (hsz (n, t) (List.mem_cons_self _ _)) base n hv1.1 hv1.2 r h
    · exact walkSeq_relPath N ih rest
        (fun p hp => hsz p (List.mem_cons_of_mem _ hp)) hv2 base r h

theorem walkEntry_relPath : ∀ (N : Nat) (t : FSTree), sizeOf t ≤ N →
    ∀ base name, nameOk name = true → t.validNames = true →
    ∀ r ∈ walkEntry base name t,
    r.relPath ≠ "" ∧ r.relPath ≠ "." ∧ r.relPath ≠ "./" := by
  intro N
  induction N with
  | zero =>
    intro t ht
    exact absurd ht (by cases t <;> simp)
  | succ N ih =>
    intro t ht base name hn hv r hr
    match t with
    | .denied => rw [walkEntry] at hr; exact absurd hr (by simp)
    | .file rd =>
      rw [walkEntry] at hr
      rcases List.mem_singleton.mp hr with rfl
      exact joinRel_good base name hn
    | .dir es =>
      have hes : sizeOf es ≤ N := by
        have hds : sizeOf (FSTree.dir es) = 1 + sizeOf es := by
          simp [FSTree.dir.sizeOf_spec]
        omega
      have hsz : ∀ p ∈ sortEnts es, sizeOf p.2 ≤ N := by
        intro p hp
        have hp' : p ∈ es := (sortEnts_perm es).mem_iff.mp hp
        have h1 : sizeOf p < sizeOf es := List.sizeOf_lt_of_mem hp'
        have h2 : sizeOf p.2 < sizeOf p := by
          rcases p with ⟨a, b⟩
          simp
        omega
      have hvs : validSeq (sortEnts es) = true := by
        rw [validSeq_sortEnts]
        rw [FSTree.validNames] at hv
        exact hv
      rw [walkEntry] at hr
      rcases List.mem_cons.mp hr with h | h
      · subst h
        exact joinRel_good base name hn
      · exact walkSeq_relPath N ih (sortEnts es) hsz hvs (joinRel base name) r h

/-- The archive member name derived from a record with a good relative
path is never the root entry (`"."` as a file, `"./"` as a directory). -/
theorem toZip_name_good {r : FileInfo}
    (h : r.relPath ≠ "" ∧ r.relPath ≠ "." ∧ r.relPath ≠ "./") :
    (toZip r).zname ≠ "." ∧ (toZip r).zname ≠ "./" := by
  by_cases hd : r.isDir = true
  · have hz : (toZip r).zname = r.relPath ++ "/" := by simp [toZip, hd]
    rw [hz]
    constructor
    · intro he
      have hdata : r.relPath.data ++ ['/'] = ['.'] := by
        have h1 := congrArg String.data he
        simpa using h1
      have hlen := congrArg List.length hdata
      simp at hlen
      have h0 : r.relPath.data = [] := List.length_eq_zero.mp (by
        have hh : r.relPath.data.length = r.relPath.length := rfl
        omega)
      rw [h0] at hdata
      simp at hdata
    · intro he
      have hdata : r.relPath.data ++ ['/'] = ['.'] ++ ['/'] := by
        have h1 := congrArg String.data he
        simpa using h1
      have h2 : r.relPath.data = ['.'] := List.append_cancel_right hdata
      exact h.2.1 (String.ext (by simpa using h2))
  · have hd' : r.isDir = false := by simpa using hd
    have hz : (toZip r).zname = r.relPath := by simp [toZip, hd']
    rw [hz]
    exact ⟨h.2.1, h.2.2⟩


/-! ### Reductions of the digest pass and the pipeline -/

/-- Successful digest pass: every accumulator holds exactly the
concatenated non-directory contents, in inventory order. -/
theorem generateDirectoryHashes_ok (H : HashFuncs) (inv : DirectoryInventory)
    (h : allReadsOk inv.Files = true) :
    generateDirectoryHashes H inv =
      .ok (finalizeHashes H (appendAll initHashState (digestStream inv.Files))) := by
  rw [generateDirectoryHashes, processFiles_ok H inv.Files initHashState h]

/-- A successful run writes the manifest and the archive; an archive
walk error becomes the fatal error while the finalized partial archive
stays on disk. -/
theorem runMain_ok_eval (H : HashFuncs) (t : FSTree) (dn : String)
    (hr : HashResult)
    (hgen : generateDirectoryHashes H (createDirectoryInventory t) = .ok hr) :
    runMain H (some t) dn =
      { fatal := (zipDirectory t).2.map (fun e => "Error creating ZIP file: " ++ e)
        disk := { toml := some (createTomlData dn (createDirectoryInventory t) hr)
                  zipFile := some (zipDirectory t).1 } } := by
  simp only [runMain, hgen]
  cases h : (zipDirectory t).2 <;> simp

/-! ### Concrete inputs -/

/-- A fully concrete instance of the abstract algorithm family, used to
instantiate witnesses. -/
def trivialFuncs : HashFuncs :=
  { sha256 := id, whirlpool := id, ripemd160 := id, sha3_256 := id,
    blake2b := id, blake3 := id, sha512 := id, k12 := id,
    xxh64 := id, murmur3 := id, xxh3 := List.length }

/-- The spec's concrete scenario: `a.txt` = "hello", `b.txt` = "world"
(listed here in reversed enumeration order, which the walk sorts). -/
def helloTree : FSTree :=
  .dir [("b.txt", .file (.ok (strBytes "world"))),
        ("a.txt", .file (.ok (strBytes "hello")))]

/-- A tree with entirely different file content than `helloTree`. -/
def altTree : FSTree :=
  .dir [("data.bin", .file (.ok [0, 1, 2, 3, 255]))]

/-- A directory whose name (`a`) is a proper prefix of a sibling file
name (`a!`), with `'!' < '/'` bytewise. -/
def c3Tree : FSTree :=
  .dir [("a!", .file (.ok [])), ("a", .dir [("b", .file (.ok []))])]

/-- A tree whose second walked entry cannot be statted. -/
def c7Bad : FSTree :=
  .dir [("a.txt", .file (.ok (strBytes "hello"))), ("zz", .denied)]

/-- `c7Bad` without the denied entry. -/
def c7Good : FSTree :=
  .dir [("a.txt", .file (.ok (strBytes "hello")))]

/-- A tree with a regular file whose read fails after three bytes. -/
def failTree : FSTree :=
  .dir [("x.bin", .file (.fail [[1, 2, 3]] "boom"))]

/-- A tree with an empty directory and a regular file. -/
def c8Tree : FSTree :=
  .dir [("sub", .dir []), ("a.txt", .file (.ok (strBytes "hi")))]

theorem walk_helloTree : rootWalk helloTree =
    [{ relPath := "a.txt", size := 5, modTime := 0, isDir := false,
       rd := .ok (strBytes "hello") },
     { relPath := "b.txt", size := 5, modTime := 0, isDir := false,
       rd := .ok (strBytes "world") }] := by
  simp [helloTree, rootWalk, sortEnts, walkSeq, walkEntry, joinRel, strBytes,
    entLe, nameLe, bytesLe, ReadOutcome.byteLen]

theorem walk_altTree : rootWalk altTree =
    [{ relPath := "data.bin", size := 5, modTime := 0, isDir := false,
       rd := .ok [0, 1, 2, 3, 255] }] := by
  simp [altTree, rootWalk, sortEnts, walkSeq, walkEntry, joinRel,
    entLe, nameLe, bytesLe, ReadOutcome.byteLen]

theorem walk_c3Tree : rootWalk c3Tree =
    [{ relPath := "a", size := 0, modTime := 0, isDir := true, rd := .ok [] },
     { relPath := "a/b", size := 0, modTime := 0, isDir := false, rd := .ok [] },
     { relPath := "a!", size := 0, modTime := 0, isDir := false, rd := .ok [] }] := by
  simp [c3Tree, rootWalk, sortEnts, walkSeq, walkEntry, joinRel, strBytes,
    entLe, nameLe, bytesLe, ReadOutcome.byteLen]

theorem walk_c7Bad : rootWalk c7Bad =
    [{ relPath := "a.txt", size := 5, modTime := 0, isDir := false,
       rd := .ok (strBytes "hello") }] := by
  simp [c7Bad, rootWalk, sortEnts, walkSeq, walkEntry, joinRel, strBytes,
    entLe, nameLe, bytesLe, ReadOutcome.byteLen]

theorem walk_c7Good : rootWalk c7Good =
    [{ relPath := "a.txt", size := 5, modTime := 0, isDir := false,
       rd := .ok (strBytes "hello") }] := by
  simp [c7Good, rootWalk, sortEnts, walkSeq, walkEntry, joinRel, strBytes,
    entLe, nameLe, bytesLe, ReadOutcome.byteLen]

theorem walk_failTree : rootWalk failTree =
    [{ relPath := "x.bin", size := 3, modTime := 0, isDir := false,
       rd := .fail [[1, 2, 3]] "boom" }] := by
  simp [failTree, rootWalk, sortEnts, walkSeq, walkEntry, joinRel,
    entLe, nameLe, bytesLe, ReadOutcome.byteLen]

theorem zip_c7Bad : zipDirectory c7Bad =
    ([⟨"a.txt", false, strBytes "hello"⟩], some "walk error at zz") := by
  simp [c7Bad, zipDirectory, zipSeq, zipEntry, sortEnts, joinRel, strBytes,
    entLe, nameLe, bytesLe]

theorem zip_c7Good : zipDirectory c7Good =
    ([⟨"a.txt", false, strBytes "hello"⟩], none) := by
  simp [c7Good, zipDirectory, zipSeq, zipEntry, sortEnts, joinRel, strBytes,
    entLe, nameLe, bytesLe]


/-! ### Claims -/

/-- Helper: every record the walk produces (under filesystem-valid entry
names) has a relative path distinct from the root's `""`, `"."`, `"./"`. -/
theorem rootWalk_relPath (t : FSTree) (hv : t.validNames = true) :
    ∀ r ∈ rootWalk t, r.relPath ≠ "" ∧ r.relPath ≠ "." ∧ r.relPath ≠ "./" := by
  rcases t with rd | es | _
  · simp [rootWalk]
  · intro r hr
    simp only [rootWalk] at hr
    have hsz : ∀ p ∈ sortEnts es, sizeOf p.2 ≤ sizeOf es := by
      intro p hp
      have hp' : p ∈ es := (sortEnts_perm es).mem_iff.mp hp
      have h1 : sizeOf p < sizeOf es := List.sizeOf_lt_of_mem hp'
      have h2 : sizeOf p.2 < sizeOf p := by
        rcases p with ⟨a, b⟩
        simp
      omega
    have hvs : validSeq (sortEnts es) = true := by
      rw [validSeq_sortEnts]
      rw [FSTree.validNames] at hv
      exact hv
    exact walkSeq_relPath (sizeOf es) (walkEntry_relPath (sizeOf es))
      (sortEnts es) hsz hvs "" r hr
  · simp [rootWalk]

/-- C1: the source feeds each chunk to only ten of the eleven
accumulators and finalizes the `XXH3` field from the constant string
`"Sample for XXH3"` (line 452), so the reported XXH3 value is the same
for trees with entirely different file content — it is not a function of
the files' bytes, contradicting the claim. -/
theorem xxh3_finalized_from_constant (H : HashFuncs) :
    (generateDirectoryHashes H (createDirectoryInventory helloTree)).map
        HashResult.XXH3 = .ok (hexNat (H.xxh3 (strBytes "Sample for XXH3"))) ∧
    (generateDirectoryHashes H (createDirectoryInventory altTree)).map
        HashResult.XXH3 = .ok (hexNat (H.xxh3 (strBytes "Sample for XXH3"))) ∧
    (generateDirectoryHashes H (createDirectoryInventory helloTree)).map
        HashResult.XXH3 =
      (generateDirectoryHashes H (createDirectoryInventory altTree)).map
        HashResult.XXH3 := by
  have h1 : (generateDirectoryHashes H (createDirectoryInventory helloTree)).map
      HashResult.XXH3 = .ok (hexNat (H.xxh3 (strBytes "Sample for XXH3"))) := by
    rw [createDirectoryInventory, walk_helloTree]
    rfl
  have h2 : (generateDirectoryHashes H (createDirectoryInventory altTree)).map
      HashResult.XXH3 = .ok (hexNat (H.xxh3 (strBytes "Sample for XXH3"))) := by
    rw [createDirectoryInventory, walk_altTree]
    rfl
  exact ⟨h1, h2, h1.trans h2.symm⟩

/-- C2: for the tree with `a.txt` = "hello" and `b.txt` = "world" the
digest pass succeeds and its SHA-256 value is the SHA-256 of the
sorted-order concatenation "helloworld". -/
theorem sha256_matches_sorted_concatenation (H : HashFuncs) :
    (generateDirectoryHashes H (createDirectoryInventory helloTree)).map
        HashResult.SHA256 =
      .ok (hexEncode (H.sha256 (strBytes "helloworld"))) := by
  rw [createDirectoryInventory, walk_helloTree]
  rfl

/-- C3 counterexample: the walk emits `a`, `a/b`, `a!` (depth-first with
per-directory name sorting), but `a!` sorts before `a/b` bytewise
(`'!' < '/'`), so the inventory is not sorted by relative path. -/
theorem files_not_sorted_by_relPath_cex :
    (createDirectoryInventory c3Tree).Files.map FileInfo.relPath
        = ["a", "a/b", "a!"] ∧
    ¬ ((createDirectoryInventory c3Tree).Files.map FileInfo.relPath).Pairwise
        (fun x y => nameLe x y = true) := by
  have hf : (createDirectoryInventory c3Tree).Files.map FileInfo.relPath
      = ["a", "a/b", "a!"] := by
    rw [createDirectoryInventory, inventoryOf_Files, walk_c3Tree]
    rfl
  refine ⟨hf, ?_⟩
  rw [hf]
  intro hp
  have h2 := (List.pairwise_cons.mp (List.pairwise_cons.mp hp).2).1 "a!" (by simp)
  have h3 : nameLe "a/b" "a!" = false := by
    simp [nameLe, strBytes, bytesLe]
  rw [h2] at h3
  exact absurd h3 (by simp)

/-- C3 amended: the walker's output is a deterministic depth-first
order with each directory's children visited in name-sorted order; for
sibling lists with distinct names (as on a real filesystem), any
enumeration order the OS returns yields the identical inventory. -/
theorem walk_independent_of_enumeration_order
    (es es' : List (String × FSTree)) (hp : List.Perm es es')
    (hnd : (es.map Prod.fst).Nodup) :
    createDirectoryInventory (FSTree.dir es)
        = createDirectoryInventory (FSTree.dir es') ∧
    ∀ base, walkSeq base (sortEnts es) = walkSeq base (sortEnts es') := by
  have hs := sortEnts_eq_of_perm hp hnd
  constructor
  · rw [createDirectoryInventory, createDirectoryInventory]
    simp only [rootWalk]
    rw [hs]
  · intro base
    rw [hs]

theorem walk_independent_of_enumeration_order_witness :
    (createDirectoryInventory (FSTree.dir
        [("a.txt", FSTree.file (.ok [1])), ("b.txt", FSTree.file (.ok [2]))])
      = createDirectoryInventory (FSTree.dir
        [("b.txt", FSTree.file (.ok [2])), ("a.txt", FSTree.file (.ok [1]))])) ∧
    ∀ base, walkSeq base (sortEnts
        [("a.txt", FSTree.file (.ok [1])), ("b.txt", FSTree.file (.ok [2]))])
      = walkSeq base (sortEnts
        [("b.txt", FSTree.file (.ok [2])), ("a.txt", FSTree.file (.ok [1]))]) :=
  walk_independent_of_enumeration_order _ _
    (List.Perm.swap _ _ _) (by decide)

/-- C4: the eleven digest values are a pure function of the ordered
non-directory contents: two inventories whose regular files carry the
same byte contents in the same order — whatever their paths, sizes,
modification times or interleaved directory records — produce the same
eleven digest values (and both passes succeed). -/
theorem digests_function_of_contents (H : HashFuncs)
    (inv inv' : DirectoryInventory)
    (h1 : allReadsOk inv.Files = true) (h2 : allReadsOk inv'.Files = true)
    (h3 : (inv.Files.filter (fun f => !f.isDir)).map contentOf
        = (inv'.Files.filter (fun f => !f.isDir)).map contentOf) :
    ∃ r r', generateDirectoryHashes H inv = .ok r ∧
      generateDirectoryHashes H inv' = .ok r' ∧ digestList r = digestList r' := by
  refine ⟨_, _, generateDirectoryHashes_ok H inv h1,
    generateDirectoryHashes_ok H inv' h2, ?_⟩
  have hs : digestStream inv.Files = digestStream inv'.Files := by
    rw [digestStream, digestStream, h3]
  rw [hs]

theorem digests_function_of_contents_witness :
    allReadsOk (DirectoryInventory.mk
        [⟨"x.txt", 5, 11, false, .ok (strBytes "hello")⟩,
         ⟨"d", 0, 3, true, .ok []⟩] 5 1 1).Files = true ∧
    allReadsOk (DirectoryInventory.mk
        [⟨"renamed.bin", 999, 42, false, .ok (strBytes "hello")⟩] 999 1 0).Files
      = true ∧
    ((DirectoryInventory.mk
        [⟨"x.txt", 5, 11, false, .ok (strBytes "hello")⟩,
         ⟨"d", 0, 3, true, .ok []⟩] 5 1 1).Files.filter
          (fun f => !f.isDir)).map contentOf
      = ((DirectoryInventory.mk
        [⟨"renamed.bin", 999, 42, false, .ok (strBytes "hello")⟩]
          999 1 0).Files.filter (fun f => !f.isDir)).map contentOf ∧
    ∃ r r', generateDirectoryHashes trivialFuncs (DirectoryInventory.mk
        [⟨"x.txt", 5, 11, false, .ok (strBytes "hello")⟩,
         ⟨"d", 0, 3, true, .ok []⟩] 5 1 1) = .ok r ∧
      generateDirectoryHashes trivialFuncs (DirectoryInventory.mk
        [⟨"renamed.bin", 999, 42, false, .ok (strBytes "hello")⟩] 999 1 0)
        = .ok r' ∧ digestList r = digestList r' :=
  ⟨by decide, by decide, by decide,
    digests_function_of_contents trivialFuncs _ _ (by decide) (by decide)
      (by decide)⟩

/-- C5: a failing read (open failure or non-EOF read error) of any
regular file makes the digest pass return an error — no `HashResult` is
produced. -/
theorem read_failure_aborts_digest_pass (H : HashFuncs)
    (inv : DirectoryInventory) (h : hasFailingRead inv.Files = true) :
    ∃ e, generateDirectoryHashes H inv = .error e := by
  obtain ⟨e, he⟩ := processFiles_fail H inv.Files initHashState h
  exact ⟨e, by rw [generateDirectoryHashes, he]⟩

theorem read_failure_aborts_digest_pass_witness :
    hasFailingRead (DirectoryInventory.mk
        [⟨"ok.txt", 2, 0, false, .ok [7, 8]⟩,
         ⟨"x.bin", 3, 0, false, .fail [[1, 2, 3]] "boom"⟩] 5 2 0).Files = true ∧
    ∃ e, generateDirectoryHashes trivialFuncs (DirectoryInventory.mk
        [⟨"ok.txt", 2, 0, false, .ok [7, 8]⟩,
         ⟨"x.bin", 3, 0, false, .fail [[1, 2, 3]] "boom"⟩] 5 2 0) = .error e :=
  ⟨by decide, read_failure_aborts_digest_pass trivialFuncs _ (by decide)⟩

/-- C6: a walk entry whose stat fails is skipped and the walk continues
with the remaining entries, wherever the entry sits in the sibling
list; a missing root makes the whole run fail with the not-exist error
before any walking, leaving nothing on disk. -/
theorem denied_entry_skipped_and_missing_root_fatal :
    (∀ (base n : String) (pre post : List (String × FSTree)),
      walkSeq base (pre ++ (n, FSTree.denied) :: post)
        = walkSeq base (pre ++ post)) ∧
    (∀ (H : HashFuncs) (dn : String), runMain H none dn =
      { fatal := some "Error: Directory does not exist"
        disk := { toml := none, zipFile := none } }) := by
  constructor
  · intro base n pre post
    rw [walkSeq_append, walkSeq_append]
    have h : walkSeq base ((n, FSTree.denied) :: post) = walkSeq base post := by
      rw [walkSeq]
      simp [walkEntry]
    rw [h]
  · intro H dn
    rfl

/-- C7 counterexample: a run on `c7Bad` fails fatally in the archive
phase, yet the archive left on disk (finalized by the deferred
`zipWriter.Close()`) is byte-for-byte the archive of a successful run
on `c7Good` — a partial artifact indistinguishable from a complete one. -/
theorem failed_run_leaves_complete_looking_zip_cex :
    ((runMain trivialFuncs (some c7Bad) "proj").fatal.isSome = true) ∧
    (runMain trivialFuncs (some c7Bad) "proj").disk.zipFile
      = (runMain trivialFuncs (some c7Good) "proj").disk.zipFile ∧
    (runMain trivialFuncs (some c7Good) "proj").fatal = none := by
  obtain ⟨hrB, hgb⟩ : ∃ hr,
      generateDirectoryHashes trivialFuncs (createDirectoryInventory c7Bad)
        = .ok hr := by
    rw [createDirectoryInventory, walk_c7Bad]
    exact ⟨_, rfl⟩
  obtain ⟨hrG, hgg⟩ : ∃ hr,
      generateDirectoryHashes trivialFuncs (createDirectoryInventory c7Good)
        = .ok hr := by
    rw [createDirectoryInventory, walk_c7Good]
    exact ⟨_, rfl⟩
  rw [runMain_ok_eval _ _ _ _ hgb, runMain_ok_eval _ _ _ _ hgg,
    zip_c7Bad, zip_c7Good]
  simp

/-- C7 amended: a fatal error stops the run and prevents all later
phases from writing: a run that fails in (or before) the digest pass
leaves neither manifest nor archive on disk, and a missing root leaves
nothing; only a failure in the final archive phase can leave artifacts
behind (see the counterexample). -/
theorem pre_manifest_failure_leaves_no_artifacts (H : HashFuncs)
    (t : FSTree) (dn e : String)
    (hgen : generateDirectoryHashes H (createDirectoryInventory t) = .error e) :
    (runMain H (some t) dn).fatal.isSome = true ∧
    (runMain H (some t) dn).disk = { toml := none, zipFile := none } ∧
    (∀ (H2 : HashFuncs) (dn2 : String),
      (runMain H2 none dn2).disk = { toml := none, zipFile := none }) := by
  refine ⟨?_, ?_, fun H2 dn2 => rfl⟩ <;> simp [runMain, hgen]

theorem pre_manifest_failure_leaves_no_artifacts_witness :
    (runMain trivialFuncs (some failTree) "proj").fatal.isSome = true ∧
    (runMain trivialFuncs (some failTree) "proj").disk
      = { toml := none, zipFile := none } ∧
    (∀ (H2 : HashFuncs) (dn2 : String),
      (runMain H2 none dn2).disk = { toml := none, zipFile := none }) :=
  pre_manifest_failure_leaves_no_artifacts trivialFuncs failTree "proj" _
    (by rw [createDirectoryInventory, walk_failTree]; rfl)

/-- C8: on a fully readable tree with filesystem-valid entry names, the
archive walk succeeds and the archive holds exactly one member per
walked record — including empty directories — with the member name
being the record's forward-slash relative path (directories carrying a
trailing slash), and no member is ever the root entry itself. -/
theorem zip_contains_all_walked_entries_never_root (t : FSTree)
    (hok : t.allOk = true) (hv : t.validNames = true) :
    (zipDirectory t).2 = none ∧
    (zipDirectory t).1 = ((createDirectoryInventory t).Files).map toZip ∧
    ∀ z ∈ (zipDirectory t).1, z.zname ≠ "." ∧ z.zname ≠ "./" := by
  have hagree := zipDirectory_agree t hok
  refine ⟨by rw [hagree], by rw [hagree], ?_⟩
  intro z hz
  rw [hagree] at hz
  obtain ⟨r, hr, rfl⟩ := List.mem_map.mp hz
  refine toZip_name_good ?_
  rw [createDirectoryInventory, inventoryOf_Files] at hr
  exact rootWalk_relPath t hv r hr

theorem zip_contains_all_walked_entries_never_root_witness :
    c8Tree.allOk = true ∧ c8Tree.validNames = true ∧
    ((zipDirectory c8Tree).2 = none ∧
    (zipDirectory c8Tree).1 = ((createDirectoryInventory c8Tree).Files).map toZip ∧
    ∀ z ∈ (zipDirectory c8Tree).1, z.zname ≠ "." ∧ z.zname ≠ "./") :=
  ⟨by simp [c8Tree, FSTree.allOk, allOkSeq],
   by simp [c8Tree, FSTree.validNames, validSeq, nameOk],
   zip_contains_all_walked_entries_never_root c8Tree
     (by simp [c8Tree, FSTree.allOk, allOkSeq])
     (by simp [c8Tree, FSTree.validNames, validSeq, nameOk])⟩

/-- C9: inserting a zero-byte regular-file record anywhere in the
record list raises `TotalFiles` by one and leaves `TotalDirs`,
`TotalSize` and the entire digest-pass result — all eleven digest
values — unchanged. -/
theorem empty_file_changes_counts_not_digests (H : HashFuncs)
    (A B : List FileInfo) (r : FileInfo)
    (hd : r.isDir = false) (hrd : r.rd = .ok []) (hsz : r.size = 0) :
    (inventoryOf (A ++ r :: B)).TotalFiles
        = (inventoryOf (A ++ B)).TotalFiles + 1 ∧
    (inventoryOf (A ++ r :: B)).TotalDirs = (inventoryOf (A ++ B)).TotalDirs ∧
    (inventoryOf (A ++ r :: B)).TotalSize = (inventoryOf (A ++ B)).TotalSize ∧
    generateDirectoryHashes H (inventoryOf (A ++ r :: B))
        = generateDirectoryHashes H (inventoryOf (A ++ B)) := by
  refine ⟨?_, ?_, ?_, ?_⟩
  · rw [inventoryOf_TotalFiles, inventoryOf_TotalFiles]
    simp [List.filter_append, List.filter_cons, hd]
    omega
  · rw [inventoryOf_TotalDirs, inventoryOf_TotalDirs]
    simp [List.filter_append, List.filter_cons, hd]
  · rw [inventoryOf_TotalSize, inventoryOf_TotalSize]
    simp [List.filter_append, List.filter_cons, hd, hsz]
  · rw [generateDirectoryHashes, generateDirectoryHashes,
      inventoryOf_Files, inventoryOf_Files,
      processFiles_insert_empty H A initHashState r B hd hrd]

theorem empty_file_changes_counts_not_digests_witness :
    (inventoryOf ([⟨"d", 0, 0, true, .ok []⟩] ++
        (⟨"empty.txt", 0, 0, false, .ok []⟩ : FileInfo) ::
        [⟨"a.txt", 5, 0, false, .ok (strBytes "hello")⟩])).TotalFiles
      = (inventoryOf ([⟨"d", 0, 0, true, .ok []⟩] ++
        [⟨"a.txt", 5, 0, false, .ok (strBytes "hello")⟩])).TotalFiles + 1 ∧
    (inventoryOf ([⟨"d", 0, 0, true, .ok []⟩] ++
        (⟨"empty.txt", 0, 0, false, .ok []⟩ : FileInfo) ::
        [⟨"a.txt", 5, 0, false, .ok (strBytes "hello")⟩])).TotalDirs
      = (inventoryOf ([⟨"d", 0, 0, true, .ok []⟩] ++
        [⟨"a.txt", 5, 0, false, .ok (strBytes "hello")⟩])).TotalDirs ∧
    (inventoryOf ([⟨"d", 0, 0, true, .ok []⟩] ++
        (⟨"empty.txt", 0, 0, false, .ok []⟩ : FileInfo) ::
        [⟨"a.txt", 5, 0, false, .ok (strBytes "hello")⟩])).TotalSize
      = (inventoryOf ([⟨"d", 0, 0, true, .ok []⟩] ++
        [⟨"a.txt", 5, 0, false, .ok (strBytes "hello")⟩])).TotalSize ∧
    generateDirectoryHashes trivialFuncs (inventoryOf
        ([⟨"d", 0, 0, true, .ok []⟩] ++
        (⟨"empty.txt", 0, 0, false, .ok []⟩ : FileInfo) ::
        [⟨"a.txt", 5, 0, false, .ok (strBytes "hello")⟩]))
      = generateDirectoryHashes trivialFuncs (inventoryOf
        ([⟨"d", 0, 0, true, .ok []⟩] ++
        [⟨"a.txt", 5, 0, false, .ok (strBytes "hello")⟩])) :=
  empty_file_changes_counts_not_digests trivialFuncs _ _ _ rfl rfl rfl

/-- C10: the aggregates the walk accumulates are consistent with the
record list it returns: `TotalFiles` counts the non-directory records,
`TotalDirs` the directory records, and `TotalSize` sums the
non-directory sizes. -/
theorem inventory_totals_consistent (t : FSTree) :
    (createDirectoryInventory t).TotalFiles
        = ((createDirectoryInventory t).Files.filter
            (fun f => !f.isDir)).length ∧
    (createDirectoryInventory t).TotalDirs
        = ((createDirectoryInventory t).Files.filter
            (fun f => f.isDir)).length ∧
    (createDirectoryInventory t).TotalSize
        = (((createDirectoryInventory t).Files.filter
            (fun f => !f.isDir)).map FileInfo.size).sum := by
  rw [createDirectoryInventory]
  exact ⟨by rw [inventoryOf_TotalFiles, inventoryOf_Files],
    by rw [inventoryOf_TotalDirs, inventoryOf_Files],
    by rw [inventoryOf_TotalSize, inventoryOf_Files]⟩

end DirHasher
